import Mathlib

/-!
Verification development for the transport-selection core of the
hickory-dns resolver (crates/resolver/src/name_server/preferences.rs and
crates/resolver/src/name_server/protocol_preference.rs).

Machine floating-point values (the SRTT samples) are embedded as their
IEEE-754 binary64 bit patterns, represented as natural numbers below 2 ^ 64,
and the standard-library total ordering over them is modelled bit-exactly.
-/

/-- Modelled from the spec: the transport `Protocol` enumeration of
`hickory_proto::xfer` (not under src/): a plain-datagram protocol (UDP),
a connection-oriented cleartext protocol (TCP), and the
connection-oriented encrypted variants (TLS, HTTPS, QUIC). -/
inductive Protocol where
  | udp
  | tcp
  | tls
  | https
  | quic
deriving DecidableEq, Repr

/-- Modelled from the spec: `Protocol::is_encrypted` is true exactly for the
TLS/HTTPS/QUIC-style variants and false for plain UDP/TCP. -/
def Protocol.is_encrypted : Protocol → Bool
  | .udp => false
  | .tcp => false
  | .tls => true
  | .https => true
  | .quic => true

/-- Destination addresses are only used as opaque lookup keys by the
transport-history oracle, so they are modelled as natural numbers. -/
abbrev IpAddr := Nat

/-- Modelled from the spec: the opportunistic-encryption policy value is
consumed only through `is_enabled()` (its window tunables are consumed
opaquely by the oracle, which receives the whole policy value). -/
structure OpportunisticEncryption where
  is_enabled : Bool
deriving DecidableEq, Repr

/-- Modelled from the spec: the transport-history oracle
(`NameServerTransportState`, not under src/) answers
`recent_success(address, protocol, policy)`; it is embedded as that
boolean-valued function. -/
structure NameServerTransportState where
  recent_success : IpAddr → Protocol → OpportunisticEncryption → Bool

/-- The encrypted protocol variants, used to model the oracle's
quantification over every supported encrypted protocol. -/
def encryptedProtocols : List Protocol := [.tls, .https, .quic]

/-- Modelled from the spec: `any_recent_success(address, policy)` is true
iff `recent_success` holds for some encrypted protocol at this address. -/
def NameServerTransportState.any_recent_success
    (s : NameServerTransportState) (ip : IpAddr)
    (oe : OpportunisticEncryption) : Bool :=
  encryptedProtocols.any fun p => s.recent_success ip p oe

/-- Sign bit of an IEEE-754 binary64 bit pattern. -/
def f64SignBit (b : Nat) : Nat := b / 2 ^ 63

/-- Biased exponent field of an IEEE-754 binary64 bit pattern. -/
def f64Exponent (b : Nat) : Nat := (b / 2 ^ 52) % 2 ^ 11

/-- Mantissa field of an IEEE-754 binary64 bit pattern. -/
def f64Mantissa (b : Nat) : Nat := b % 2 ^ 52

/-- A binary64 bit pattern encodes a NaN iff the exponent field is all ones
and the mantissa is nonzero. -/
def f64IsNaN (b : Nat) : Bool :=
  f64Exponent b == 2 ^ 11 - 1 && f64Mantissa b != 0

/-- A binary64 bit pattern encodes a finite value iff the exponent field is
not all ones (otherwise it is an infinity or a NaN). -/
def f64IsFinite (b : Nat) : Bool :=
  f64Exponent b != 2 ^ 11 - 1

/-- The monotone integer key underlying `f64::total_cmp`: the standard
library reinterprets the bit pattern as a signed 64-bit integer and, for a
negative sign bit, flips the low 63 bits (two's-complement arithmetic turns
sign-magnitude order into linear order). On patterns below 2 ^ 64 this is
order-isomorphic to the natural-number key computed here, shifted so that
the negative half sits below the positive half. -/
def f64TotalOrdKey (b : Nat) : Nat :=
  if b < 2 ^ 63 then 2 ^ 63 + b else 2 ^ 64 - 1 - b

/-- Model of `f64::total_cmp` from the Rust standard library, acting on
binary64 bit patterns: the IEEE-754 totalOrder predicate. -/
def f64TotalCmp (a b : Nat) : Ordering :=
  compare (f64TotalOrdKey a) (f64TotalOrdKey b)

/-- A live connection as seen by the selector: its protocol together with
the current smoothed round-trip-time sample `meta.srtt.current()`,
embedded as an IEEE-754 binary64 bit pattern. -/
structure ConnectionState where
  protocol : Protocol
  srttCurrent : Nat
deriving DecidableEq, Repr

/-- A not-yet-established connection configuration; only the protocol
decoded by `to_protocol()` is consulted by the selection core, so the
protocol-encoding field is embedded as the decoded protocol itself. -/
structure ConnectionConfig where
  protocol : Protocol
deriving DecidableEq, Repr

/-- One step of `Iterator::min_by` from the Rust standard library: keep the
accumulator unless the next element compares strictly smaller. -/
def pickMin (cmp : α → α → Ordering) (acc y : α) : α :=
  match cmp acc y with
  | .gt => y
  | _ => acc

/-- Model of `Iterator::min_by` from the Rust standard library: fold over
the list with `pickMin`, so that among equal minima the first in input
order is returned. -/
def rustMinBy (cmp : α → α → Ordering) : List α → Option α
  | [] => none
  | x :: xs => some (xs.foldl (pickMin cmp) x)

/-- Preference state from preferences.rs: whether UDP has been excluded
from consideration for the current query attempt. -/
structure Preferences where
  exclude_udp : Bool := false
deriving DecidableEq, Repr

/-- Embedding of `Preferences::allows_protocol`. -/
def Preferences.allows_protocol (self : Preferences) (protocol : Protocol) : Bool :=
  !(self.exclude_udp && protocol == Protocol.udp)

/-- Embedding of `Preferences::compare_connections`: when opportunistic
encryption is enabled an encrypted protocol sorts before an unencrypted
one; otherwise equal protocols compare by SRTT, UDP sorts before any other
protocol, and remaining mixed pairs compare by SRTT. -/
def Preferences.compare_connections (_self : Preferences)
    (opportunistic_encryption : Bool)
    (a b : ConnectionState) : Ordering :=
  let base :=
    if a.protocol = b.protocol then
      f64TotalCmp a.srttCurrent b.srttCurrent
    else
      match a.protocol, b.protocol with
      | .udp, _ => .lt
      | _, .udp => .gt
      | _, _ => f64TotalCmp a.srttCurrent b.srttCurrent
  if opportunistic_encryption then
    match a.protocol.is_encrypted, b.protocol.is_encrypted with
    | true, false => .lt
    | false, true => .gt
    | _, _ => base
  else base

/-- Embedding of `Preferences::select_connection`: filter to the allowed
protocols, take the minimum under `compare_connections`, then apply the
opportunistic-encryption upgrade veto. -/
def Preferences.select_connection (self : Preferences) (ip : IpAddr)
    (encrypted_transport_state : NameServerTransportState)
    (opportunistic_encryption : OpportunisticEncryption)
    (connections : List ConnectionState) : Option ConnectionState :=
  match rustMinBy
      (fun a b => self.compare_connections opportunistic_encryption.is_enabled a b)
      (connections.filter fun conn => self.allows_protocol conn.protocol) with
  | none => none
  | some selected =>
    if opportunistic_encryption.is_enabled
        && !selected.protocol.is_encrypted
        && encrypted_transport_state.any_recent_success ip opportunistic_encryption then
      none
    else
      some selected

/-- Embedding of `Preferences::compare_connection_configs`: when
opportunistic encryption is enabled an encrypted protocol with a recent
recorded success for that exact protocol sorts first; otherwise UDP sorts
before any other protocol and remaining pairs compare equal. -/
def Preferences.compare_connection_configs (_self : Preferences) (ip : IpAddr)
    (encrypted_transport_state : NameServerTransportState)
    (opportunistic_encryption : OpportunisticEncryption)
    (a b : ConnectionConfig) : Ordering :=
  let a_protocol := a.protocol
  let b_protocol := b.protocol
  let base : Ordering :=
    if a_protocol = b_protocol then .eq
    else
      match a_protocol, b_protocol with
      | .udp, _ => .lt
      | _, .udp => .gt
      | _, _ => .eq
  if opportunistic_encryption.is_enabled then
    let a_recent_enc_success := a_protocol.is_encrypted
      && encrypted_transport_state.recent_success ip a_protocol opportunistic_encryption
    let b_recent_enc_success := b_protocol.is_encrypted
      && encrypted_transport_state.recent_success ip b_protocol opportunistic_encryption
    match a_recent_enc_success, b_recent_enc_success with
    | true, false => .lt
    | false, true => .gt
    | _, _ => base
  else base

/-- Embedding of `Preferences::select_connection_config`: filter to the
allowed protocols and take the minimum under `compare_connection_configs`. -/
def Preferences.select_connection_config (self : Preferences) (ip : IpAddr)
    (encrypted_transport_state : NameServerTransportState)
    (opportunistic_encryption : OpportunisticEncryption)
    (connection_configs : List ConnectionConfig) : Option ConnectionConfig :=
  rustMinBy
    (fun a b => self.compare_connection_configs ip encrypted_transport_state
      opportunistic_encryption a b)
    (connection_configs.filter fun c => self.allows_protocol c.protocol)

/-- Earlier-form preference state from protocol_preference.rs. -/
structure ProtocolPreference where
  exclude_udp : Bool := false
deriving DecidableEq, Repr

/-- Embedding of `ProtocolPreference::allows_protocol`. -/
def ProtocolPreference.allows_protocol (self : ProtocolPreference)
    (protocol : Protocol) : Bool :=
  !(self.exclude_udp && protocol == Protocol.udp)

/-- Embedding of `ProtocolPreference::compare_connections`: equal
protocols compare by SRTT, UDP sorts before any other protocol, and
remaining mixed pairs compare by SRTT. -/
def ProtocolPreference.compare_connections (_self : ProtocolPreference)
    (a b : ConnectionState) : Ordering :=
  if a.protocol = b.protocol then
    f64TotalCmp a.srttCurrent b.srttCurrent
  else
    match a.protocol, b.protocol with
    | .udp, _ => .lt
    | _, .udp => .gt
    | _, _ => f64TotalCmp a.srttCurrent b.srttCurrent

/-- Embedding of `ProtocolPreference::select_connection`: filter to the
allowed protocols and take the minimum under `compare_connections`. -/
def ProtocolPreference.select_connection (self : ProtocolPreference)
    (connections : List ConnectionState) : Option ConnectionState :=
  rustMinBy
    (fun a b => self.compare_connections a b)
    (connections.filter fun conn => self.allows_protocol conn.protocol)

/-! ## General lemmas about the `min_by` model -/

theorem pickMin_eq_or (cmp : α → α → Ordering) (a y : α) :
    pickMin cmp a y = a ∨ pickMin cmp a y = y := by
  unfold pickMin
  cases cmp a y <;> simp

theorem foldl_pickMin_mem (cmp : α → α → Ordering) (l : List α) :
    ∀ x : α, l.foldl (pickMin cmp) x ∈ x :: l := by
  induction l with
  | nil => intro x; simp
  | cons y ys ih =>
    intro x
    rw [List.foldl_cons]
    rcases List.mem_cons.mp (ih (pickMin cmp x y)) with h | h
    · rcases pickMin_eq_or cmp x y with h2 | h2 <;> rw [h, h2] <;> simp
    · simp [List.mem_cons, h]

theorem rustMinBy_mem (cmp : α → α → Ordering) (l : List α) (m : α)
    (h : rustMinBy cmp l = some m) : m ∈ l := by
  cases l with
  | nil => simp [rustMinBy] at h
  | cons x xs =>
    simp only [rustMinBy, Option.some.injEq] at h
    rw [← h]
    exact foldl_pickMin_mem cmp xs x

theorem rustMinBy_eq_none_iff (cmp : α → α → Ordering) (l : List α) :
    rustMinBy cmp l = none ↔ l = [] := by
  cases l <;> simp [rustMinBy]

theorem pickMin_key (key : α → Nat) (cmp : α → α → Ordering)
    (hcmp : ∀ a b, cmp a b = compare (key a) (key b)) (x y : α) :
    pickMin cmp x y = if key y < key x then y else x := by
  unfold pickMin
  rw [hcmp]
  by_cases h : key y < key x
  · rw [if_pos h, Nat.compare_eq_gt.mpr h]
  · rw [if_neg h]
    cases hc : compare (key x) (key y)
    · rfl
    · rfl
    · exact absurd (Nat.compare_eq_gt.mp hc) h

theorem foldl_pickMin_key (key : α → Nat) (cmp : α → α → Ordering)
    (hcmp : ∀ a b, cmp a b = compare (key a) (key b)) (l : List α) :
    ∀ x : α,
      ∃ p s, x :: l = p ++ (l.foldl (pickMin cmp) x) :: s
        ∧ (∀ y ∈ x :: l, key (l.foldl (pickMin cmp) x) ≤ key y)
        ∧ (∀ y ∈ p, key (l.foldl (pickMin cmp) x) < key y) := by
  induction l with
  | nil =>
    intro x
    exact ⟨[], [], rfl, by simp, by simp⟩
  | cons y ys ih =>
    intro x
    rw [List.foldl_cons, pickMin_key key cmp hcmp]
    by_cases h : key y < key x
    · rw [if_pos h]
      obtain ⟨p, s, hsplit, hmin, hstrict⟩ := ih y
      refine ⟨x :: p, s, ?_, ?_, ?_⟩
      · rw [List.cons_append, ← hsplit]
      · intro z hz
        rcases List.mem_cons.mp hz with rfl | hz
        · exact Nat.le_of_lt (Nat.lt_of_le_of_lt (hmin y (List.mem_cons_self y ys)) h)
        · exact hmin z hz
      · intro z hz
        rcases List.mem_cons.mp hz with rfl | hz
        · exact Nat.lt_of_le_of_lt (hmin y (List.mem_cons_self y ys)) h
        · exact hstrict z hz
    · rw [if_neg h]
      have hxy : key x ≤ key y := Nat.le_of_not_lt h
      obtain ⟨p, s, hsplit, hmin, hstrict⟩ := ih x
      cases p with
      | nil =>
        rw [List.nil_append, List.cons.injEq] at hsplit
        obtain ⟨hx, _⟩ := hsplit
        rw [← hx] at hmin ⊢
        refine ⟨[], y :: ys, by rw [List.nil_append], ?_, by simp⟩
        intro z hz
        rcases List.mem_cons.mp hz with rfl | hz
        · exact Nat.le_refl _
        · rcases List.mem_cons.mp hz with rfl | hz
          · exact hxy
          · exact hmin z (List.mem_cons_of_mem x hz)
      | cons x' p' =>
        rw [List.cons_append, List.cons.injEq] at hsplit
        obtain ⟨hx, hys⟩ := hsplit
        subst hx
        have hrx : key (ys.foldl (pickMin cmp) x) < key x :=
          hstrict x (List.mem_cons_self x p')
        refine ⟨x :: y :: p', s, ?_, ?_, ?_⟩
        · rw [List.cons_append, List.cons_append, ← hys]
        · intro z hz
          rcases List.mem_cons.mp hz with rfl | hz
          · exact Nat.le_of_lt hrx
          · rcases List.mem_cons.mp hz with rfl | hz
            · exact Nat.le_of_lt (Nat.lt_of_lt_of_le hrx hxy)
            · exact hmin z (List.mem_cons_of_mem x hz)
        · intro z hz
          rcases List.mem_cons.mp hz with rfl | hz
          · exact hrx
          · rcases List.mem_cons.mp hz with rfl | hz
            · exact Nat.lt_of_lt_of_le hrx hxy
            · exact hstrict z (List.mem_cons_of_mem x hz)

theorem rustMinBy_key (key : α → Nat) (cmp : α → α → Ordering)
    (hcmp : ∀ a b, cmp a b = compare (key a) (key b)) (l : List α) (m : α)
    (h : rustMinBy cmp l = some m) :
    ∃ p s, l = p ++ m :: s
      ∧ (∀ y ∈ l, key m ≤ key y)
      ∧ (∀ y ∈ p, key m < key y) := by
  cases l with
  | nil => simp [rustMinBy] at h
  | cons x xs =>
    simp only [rustMinBy, Option.some.injEq] at h
    subst h
    exact foldl_pickMin_key key cmp hcmp xs x

/-! ## Key characterization of the config comparison -/

/-- The natural-number key realized by `compare_connection_configs` for a
fixed address, oracle and policy: recent encrypted success dominates (when
the policy is enabled), then UDP sorts before any other protocol. -/
def cfgKey (ip : IpAddr) (st : NameServerTransportState)
    (oe : OpportunisticEncryption) (c : ConnectionConfig) : Nat :=
  (if oe.is_enabled then
    (if c.protocol.is_encrypted && st.recent_success ip c.protocol oe then 0 else 2)
  else 0)
  + (if c.protocol = .udp then 0 else 1)

theorem compare_connection_configs_eq_key (p : Preferences) (ip : IpAddr)
    (st : NameServerTransportState) (oe : OpportunisticEncryption)
    (a b : ConnectionConfig) :
    p.compare_connection_configs ip st oe a b
      = compare (cfgKey ip st oe a) (cfgKey ip st oe b) := by
  obtain ⟨ap⟩ := a
  obtain ⟨bp⟩ := b
  cases hoe : oe.is_enabled
  · cases ap <;> cases bp <;>
      simp [Preferences.compare_connection_configs, cfgKey, hoe] <;> rfl
  · cases hra : Protocol.is_encrypted ap && st.recent_success ip ap oe <;>
      cases hrb : Protocol.is_encrypted bp && st.recent_success ip bp oe <;>
      cases ap <;> cases bp <;>
      simp_all [Preferences.compare_connection_configs, cfgKey, Protocol.is_encrypted] <;>
      rfl

/-! ## Encryption-priority lemmas for the connection comparison -/

theorem compare_connections_enc_lt (p : Preferences) (a b : ConnectionState)
    (ha : a.protocol.is_encrypted = true) (hb : b.protocol.is_encrypted = false) :
    p.compare_connections true a b = .lt := by
  simp [Preferences.compare_connections, ha, hb]

theorem compare_connections_enc_gt (p : Preferences) (a b : ConnectionState)
    (ha : a.protocol.is_encrypted = false) (hb : b.protocol.is_encrypted = true) :
    p.compare_connections true a b = .gt := by
  simp [Preferences.compare_connections, ha, hb]

theorem foldl_pickMin_enc (p : Preferences) (l : List ConnectionState) :
    ∀ x : ConnectionState,
      (x.protocol.is_encrypted = true ∨ ∃ c ∈ l, c.protocol.is_encrypted = true) →
      (l.foldl (pickMin fun a b => p.compare_connections true a b) x).protocol.is_encrypted
        = true := by
  induction l with
  | nil =>
    intro x h
    rcases h with h | ⟨c, hc, _⟩
    · simpa using h
    · simp at hc
  | cons y ys ih =>
    intro x h
    rw [List.foldl_cons]
    cases hx : x.protocol.is_encrypted
    · rcases h with h | ⟨c, hc, hcenc⟩
      · rw [hx] at h; cases h
      · rcases List.mem_cons.mp hc with rfl | hc
        · have hpick : pickMin (fun a b => p.compare_connections true a b) x c = c := by
            simp only [pickMin, compare_connections_enc_gt p x c hx hcenc]
          rw [hpick]
          exact ih c (Or.inl hcenc)
        · exact ih _ (Or.inr ⟨c, hc, hcenc⟩)
    · cases hy : y.protocol.is_encrypted
      · have hpick : pickMin (fun a b => p.compare_connections true a b) x y = x := by
          simp only [pickMin, compare_connections_enc_lt p x y hx hy]
        rw [hpick]
        exact ih x (Or.inl hx)
      · have henc : (pickMin (fun a b => p.compare_connections true a b) x y).protocol.is_encrypted = true := by
          rcases pickMin_eq_or (fun a b => p.compare_connections true a b) x y with h2 | h2 <;>
            rw [h2]
          · exact hx
          · exact hy
        exact ih _ (Or.inl henc)

/-! ## Lemmas about the total ordering over binary64 bit patterns -/

theorem f64TotalOrdKey_inj (a b : Nat) (ha : a < 2 ^ 64) (hb : b < 2 ^ 64)
    (h : f64TotalOrdKey a = f64TotalOrdKey b) : a = b := by
  unfold f64TotalOrdKey at h
  split_ifs at h <;> omega

theorem f64TotalOrdKey_nan_pos (a b : Nat) (ha : a < 2 ^ 64) (hb : b < 2 ^ 64)
    (hnan : f64IsNaN a = true) (hsign : f64SignBit a = 0)
    (hfin : f64IsFinite b = true) :
    f64TotalOrdKey b < f64TotalOrdKey a := by
  simp only [f64IsNaN, f64Exponent, f64Mantissa, Bool.and_eq_true, beq_iff_eq,
    bne_iff_ne, ne_eq] at hnan
  simp only [f64SignBit] at hsign
  simp only [f64IsFinite, f64Exponent, bne_iff_ne, ne_eq] at hfin
  obtain ⟨hexp, hman⟩ := hnan
  unfold f64TotalOrdKey
  split_ifs <;> omega

theorem f64TotalOrdKey_nan_neg (a b : Nat) (ha : a < 2 ^ 64) (hb : b < 2 ^ 64)
    (hnan : f64IsNaN a = true) (hsign : f64SignBit a = 1)
    (hfin : f64IsFinite b = true) :
    f64TotalOrdKey a < f64TotalOrdKey b := by
  simp only [f64IsNaN, f64Exponent, f64Mantissa, Bool.and_eq_true, beq_iff_eq,
    bne_iff_ne, ne_eq] at hnan
  simp only [f64SignBit] at hsign
  simp only [f64IsFinite, f64Exponent, bne_iff_ne, ne_eq] at hfin
  obtain ⟨hexp, hman⟩ := hnan
  unfold f64TotalOrdKey
  split_ifs <;> omega

/-! ## Claim theorems -/

/-- C8: for every preference state and protocol, `allows_protocol` returns
false iff the `exclude_udp` flag is set and the protocol is plain UDP; with
`exclude_udp = true` it returns true for every non-UDP protocol, and with
`exclude_udp = false` it returns true for all protocols. -/
theorem allows_protocol_false_iff (p : Preferences) (protocol : Protocol) :
    (p.allows_protocol protocol = false ↔ (p.exclude_udp = true ∧ protocol = .udp))
    ∧ (p.exclude_udp = true → protocol ≠ .udp → p.allows_protocol protocol = true)
    ∧ (p.exclude_udp = false → p.allows_protocol protocol = true) := by
  obtain ⟨e⟩ := p
  cases e <;> cases protocol <;> simp [Preferences.allows_protocol]

/-- Witness for `allows_protocol_false_iff` at concrete inputs. -/
theorem allows_protocol_false_iff_witness :
    Preferences.allows_protocol ⟨true⟩ .udp = false
    ∧ Preferences.allows_protocol ⟨true⟩ .tcp = true
    ∧ Preferences.allows_protocol ⟨false⟩ .udp = true :=
  ⟨(allows_protocol_false_iff ⟨true⟩ .udp).1.mpr ⟨rfl, rfl⟩,
   (allows_protocol_false_iff ⟨true⟩ .tcp).2.1 rfl (by decide),
   (allows_protocol_false_iff ⟨false⟩ .udp).2.2 rfl⟩

/-- C9: whenever `select_connection` returns a connection, that connection
is allowed by the current preference state; in particular once UDP has been
excluded the returned connection is never a plain-UDP connection. -/
theorem select_connection_allowed (p : Preferences) (ip : IpAddr)
    (st : NameServerTransportState) (oe : OpportunisticEncryption)
    (connections : List ConnectionState) (m : ConnectionState)
    (h : p.select_connection ip st oe connections = some m) :
    p.allows_protocol m.protocol = true
    ∧ (p.exclude_udp = true → m.protocol ≠ .udp) := by
  unfold Preferences.select_connection at h
  cases hmin : rustMinBy
      (fun a b => p.compare_connections oe.is_enabled a b)
      (connections.filter fun conn => p.allows_protocol conn.protocol) with
  | none => rw [hmin] at h; simp at h
  | some sel =>
    rw [hmin] at h
    dsimp only at h
    split_ifs at h
    simp only [Option.some.injEq] at h
    have hmem := rustMinBy_mem _ _ _ hmin
    have hallow : p.allows_protocol sel.protocol = true := (List.mem_filter.mp hmem).2
    rw [← h]
    refine ⟨hallow, fun he hudp => ?_⟩
    rw [hudp] at hallow
    simp [Preferences.allows_protocol, he] at hallow

/-- Witness for `select_connection_allowed` at a concrete input. -/
theorem select_connection_allowed_witness :
    Preferences.allows_protocol ⟨true⟩ (ConnectionState.mk .tcp 5).protocol = true
    ∧ (ConnectionState.mk .tcp 5).protocol ≠ .udp :=
  ⟨(select_connection_allowed ⟨true⟩ 0 ⟨fun _ _ _ => false⟩ ⟨false⟩
      [⟨.udp, 1⟩, ⟨.tcp, 5⟩] ⟨.tcp, 5⟩ (by decide)).1,
   (select_connection_allowed ⟨true⟩ 0 ⟨fun _ _ _ => false⟩ ⟨false⟩
      [⟨.udp, 1⟩, ⟨.tcp, 5⟩] ⟨.tcp, 5⟩ (by decide)).2 rfl⟩

/-- C10: with opportunistic encryption enabled, if some allowed candidate
is encrypted then `select_connection` returns a connection, and the
returned connection is itself encrypted: the upgrade veto can only fire
when every allowed candidate is unencrypted. -/
theorem select_connection_some_of_encrypted (p : Preferences) (ip : IpAddr)
    (st : NameServerTransportState) (oe : OpportunisticEncryption)
    (connections : List ConnectionState) (c : ConnectionState)
    (hoe : oe.is_enabled = true) (hc : c ∈ connections)
    (hallow : p.allows_protocol c.protocol = true)
    (henc : c.protocol.is_encrypted = true) :
    ∃ m, p.select_connection ip st oe connections = some m
      ∧ m.protocol.is_encrypted = true := by
  have hcf : c ∈ connections.filter fun x => p.allows_protocol x.protocol :=
    List.mem_filter.mpr ⟨hc, hallow⟩
  cases hf : connections.filter fun x => p.allows_protocol x.protocol with
  | nil => rw [hf] at hcf; simp at hcf
  | cons x xs =>
    rw [hf] at hcf
    have hme : (xs.foldl (pickMin fun a b => p.compare_connections oe.is_enabled a b)
        x).protocol.is_encrypted = true := by
      rw [hoe]
      apply foldl_pickMin_enc
      rcases List.mem_cons.mp hcf with rfl | hcx
      · exact Or.inl henc
      · exact Or.inr ⟨c, hcx, henc⟩
    refine ⟨_, ?_, hme⟩
    unfold Preferences.select_connection
    rw [hf]
    simp only [rustMinBy]
    rw [if_neg ?_]
    intro hcond
    rw [hme] at hcond
    simp at hcond

/-- Witness for `select_connection_some_of_encrypted` at a concrete input. -/
theorem select_connection_some_of_encrypted_witness :
    ∃ m, Preferences.select_connection ⟨false⟩ 0 ⟨fun _ _ _ => true⟩ ⟨true⟩
        [⟨.tcp, 5⟩, ⟨.tls, 40⟩] = some m
      ∧ m.protocol.is_encrypted = true :=
  select_connection_some_of_encrypted ⟨false⟩ 0 ⟨fun _ _ _ => true⟩ ⟨true⟩
    [⟨.tcp, 5⟩, ⟨.tls, 40⟩] ⟨.tls, 40⟩ rfl (by decide) (by decide) rfl

/-- C7: with opportunistic encryption disabled, the final-form
`Preferences::select_connection` computes exactly the earlier-form
`ProtocolPreference::select_connection` whenever the two preference states
carry the same `exclude_udp` flag: the earlier selector is the restriction
of the final one. -/
theorem select_connection_refines (p : Preferences) (q : ProtocolPreference)
    (hx : p.exclude_udp = q.exclude_udp) (ip : IpAddr)
    (st : NameServerTransportState) (oe : OpportunisticEncryption)
    (hoe : oe.is_enabled = false) (connections : List ConnectionState) :
    p.select_connection ip st oe connections = q.select_connection connections := by
  have hall : ∀ c : ConnectionState,
      p.allows_protocol c.protocol = q.allows_protocol c.protocol := by
    intro c
    simp [Preferences.allows_protocol, ProtocolPreference.allows_protocol, hx]
  have hcmp : (fun a b => p.compare_connections oe.is_enabled a b)
      = fun a b => q.compare_connections a b := by
    funext a b
    rw [hoe]
    simp [Preferences.compare_connections, ProtocolPreference.compare_connections]
  unfold Preferences.select_connection ProtocolPreference.select_connection
  rw [hcmp, hoe]
  simp only [hall]
  cases rustMinBy (fun a b => q.compare_connections a b)
      (connections.filter fun conn => q.allows_protocol conn.protocol) <;> simp

/-- Witness for `select_connection_refines` at a concrete input. -/
theorem select_connection_refines_witness :
    Preferences.select_connection ⟨true⟩ 0 ⟨fun _ _ _ => true⟩ ⟨false⟩
        [⟨.udp, 1⟩, ⟨.tcp, 5⟩]
      = ProtocolPreference.select_connection ⟨true⟩ [⟨.udp, 1⟩, ⟨.tcp, 5⟩] :=
  select_connection_refines ⟨true⟩ ⟨true⟩ rfl 0 ⟨fun _ _ _ => true⟩ ⟨false⟩ rfl
    [⟨.udp, 1⟩, ⟨.tcp, 5⟩]

/-- C2: `select_connection` returns none iff no candidate is allowed by
the preference state, or the policy is enabled, the minimum allowed
candidate under the comparison ordering is unencrypted, and the oracle
reports a recent success on some encrypted protocol; in every other case
it returns that minimum allowed candidate. -/
theorem select_connection_none_iff (p : Preferences) (ip : IpAddr)
    (st : NameServerTransportState) (oe : OpportunisticEncryption)
    (connections : List ConnectionState) :
    (p.select_connection ip st oe connections = none ↔
      ((∀ c ∈ connections, p.allows_protocol c.protocol = false)
        ∨ ∃ m, rustMinBy (fun a b => p.compare_connections oe.is_enabled a b)
              (connections.filter fun conn => p.allows_protocol conn.protocol)
            = some m
          ∧ oe.is_enabled = true
          ∧ m.protocol.is_encrypted = false
          ∧ st.any_recent_success ip oe = true))
    ∧ ∀ m, rustMinBy (fun a b => p.compare_connections oe.is_enabled a b)
          (connections.filter fun conn => p.allows_protocol conn.protocol)
        = some m →
      ¬(oe.is_enabled = true ∧ m.protocol.is_encrypted = false
        ∧ st.any_recent_success ip oe = true) →
      p.select_connection ip st oe connections = some m := by
  have hvetobool : ∀ m : ConnectionState,
      ¬(oe.is_enabled = true ∧ m.protocol.is_encrypted = false
        ∧ st.any_recent_success ip oe = true) →
      (oe.is_enabled && !m.protocol.is_encrypted && st.any_recent_success ip oe)
        = false := by
    intro m hm
    cases h1 : oe.is_enabled <;> cases h2 : m.protocol.is_encrypted <;>
      cases h3 : st.any_recent_success ip oe <;> simp_all
  constructor
  · cases hmin : rustMinBy (fun a b => p.compare_connections oe.is_enabled a b)
        (connections.filter fun conn => p.allows_protocol conn.protocol) with
    | none =>
      have hfilter := (rustMinBy_eq_none_iff _ _).mp hmin
      have hnone : p.select_connection ip st oe connections = none := by
        unfold Preferences.select_connection
        rw [hmin]
      rw [hnone]
      simp only [true_iff]
      exact Or.inl (by simpa using List.filter_eq_nil_iff.mp hfilter)
    | some sel =>
      by_cases hveto : oe.is_enabled = true ∧ sel.protocol.is_encrypted = false
          ∧ st.any_recent_success ip oe = true
      · have hb : (oe.is_enabled && !sel.protocol.is_encrypted
            && st.any_recent_success ip oe) = true := by
          simp [hveto.1, hveto.2.1, hveto.2.2]
        have hnone : p.select_connection ip st oe connections = none := by
          unfold Preferences.select_connection
          rw [hmin]
          dsimp only
          rw [if_pos hb]
        rw [hnone]
        simp only [true_iff]
        exact Or.inr ⟨sel, rfl, hveto⟩
      · have hsome : p.select_connection ip st oe connections = some sel := by
          unfold Preferences.select_connection
          rw [hmin]
          dsimp only
          rw [if_neg (by simp [hvetobool sel hveto])]
        rw [hsome]
        constructor
        · intro hcontra; cases hcontra
        · rintro (hall | ⟨m, hm, hmo⟩)
          · have : connections.filter (fun conn => p.allows_protocol conn.protocol) = [] :=
              List.filter_eq_nil_iff.mpr (by simpa using hall)
            rw [this] at hmin
            simp [rustMinBy] at hmin
          · simp only [Option.some.injEq] at hm
            rw [← hm] at hmo
            exact absurd hmo hveto
  · intro m hmin hveto
    unfold Preferences.select_connection
    rw [hmin]
    dsimp only
    rw [if_neg (by simp [hvetobool m hveto])]

/-- Witness for `select_connection_none_iff` at a concrete input. -/
theorem select_connection_none_iff_witness :
    Preferences.select_connection ⟨false⟩ 0 ⟨fun _ _ _ => true⟩ ⟨true⟩ [] = none :=
  (select_connection_none_iff ⟨false⟩ 0 ⟨fun _ _ _ => true⟩ ⟨true⟩ []).1.mpr
    (Or.inl (by simp))

/-- Helper: two connections with the same protocol always compare by the
total SRTT ordering, under either policy setting. -/
theorem compare_connections_same_protocol (p : Preferences) (en : Bool)
    (a b : ConnectionState) (h : a.protocol = b.protocol) :
    p.compare_connections en a b = f64TotalCmp a.srttCurrent b.srttCurrent := by
  cases en
  · simp [Preferences.compare_connections, h]
  · have h2 : b.protocol.is_encrypted = a.protocol.is_encrypted := by rw [h]
    cases hae : a.protocol.is_encrypted <;>
      simp_all [Preferences.compare_connections, h]

/-- C3: the connection comparison realizes exactly the specified ordering:
with the policy enabled encrypted sorts strictly before unencrypted; equal
protocols compare by the total SRTT ordering; among pairs not separated by
the encryption rule, UDP sorts before any other protocol and the remaining
mixed pairs compare by the total SRTT ordering. -/
theorem compare_connections_spec (p : Preferences) (enabled : Bool)
    (a b : ConnectionState) :
    (enabled = true → a.protocol.is_encrypted = true →
      b.protocol.is_encrypted = false →
      p.compare_connections enabled a b = .lt
        ∧ p.compare_connections enabled b a = .gt)
    ∧ (a.protocol = b.protocol →
      p.compare_connections enabled a b = f64TotalCmp a.srttCurrent b.srttCurrent)
    ∧ (a.protocol ≠ b.protocol →
      (enabled = true → a.protocol.is_encrypted = b.protocol.is_encrypted) →
      ((a.protocol = .udp → p.compare_connections enabled a b = .lt)
        ∧ (b.protocol = .udp → p.compare_connections enabled a b = .gt)
        ∧ (a.protocol ≠ .udp → b.protocol ≠ .udp →
          p.compare_connections enabled a b
            = f64TotalCmp a.srttCurrent b.srttCurrent))) := by
  refine ⟨?_, compare_connections_same_protocol p enabled a b, ?_⟩
  · intro he ha hb
    subst he
    exact ⟨compare_connections_enc_lt p a b ha hb,
      compare_connections_enc_gt p b a hb ha⟩
  · intro hne hencs
    obtain ⟨ap, sa⟩ := a
    obtain ⟨bp, sb⟩ := b
    simp only at hne hencs ⊢
    cases enabled <;> cases ap <;> cases bp <;>
      simp_all [Preferences.compare_connections, Protocol.is_encrypted]

/-- Witness for `compare_connections_spec` at concrete inputs. -/
theorem compare_connections_spec_witness :
    (Preferences.compare_connections ⟨false⟩ true ⟨.tls, 40⟩ ⟨.tcp, 5⟩ = .lt
      ∧ Preferences.compare_connections ⟨false⟩ true ⟨.tcp, 5⟩ ⟨.tls, 40⟩ = .gt)
    ∧ Preferences.compare_connections ⟨false⟩ false ⟨.tcp, 5⟩ ⟨.tcp, 7⟩
        = f64TotalCmp 5 7
    ∧ Preferences.compare_connections ⟨false⟩ false ⟨.udp, 9⟩ ⟨.tcp, 5⟩ = .lt
    ∧ Preferences.compare_connections ⟨false⟩ false ⟨.tls, 9⟩ ⟨.tcp, 5⟩
        = f64TotalCmp 9 5 :=
  ⟨(compare_connections_spec ⟨false⟩ true ⟨.tls, 40⟩ ⟨.tcp, 5⟩).1 rfl rfl rfl,
   (compare_connections_spec ⟨false⟩ false ⟨.tcp, 5⟩ ⟨.tcp, 7⟩).2.1 rfl,
   ((compare_connections_spec ⟨false⟩ false ⟨.udp, 9⟩ ⟨.tcp, 5⟩).2.2
     (by decide) (by decide)).1 rfl,
   ((compare_connections_spec ⟨false⟩ false ⟨.tls, 9⟩ ⟨.tcp, 5⟩).2.2
     (by decide) (by decide)).2.2 (by decide) (by decide)⟩

/-- C4 counterexample: a NaN bit pattern with the sign bit set compares
less than the finite value zero under the total SRTT comparison, so a
same-protocol candidate carrying that NaN SRTT wins both the pairwise
comparison and the selection. -/
theorem f64TotalCmp_neg_nan_counterexample :
    f64IsNaN 0xFFF8000000000000 = true
    ∧ f64SignBit 0xFFF8000000000000 = 1
    ∧ f64IsFinite 0 = true
    ∧ f64TotalCmp 0xFFF8000000000000 0 = .lt
    ∧ Preferences.compare_connections ⟨false⟩ false
        ⟨.tcp, 0xFFF8000000000000⟩ ⟨.tcp, 0⟩ = .lt
    ∧ Preferences.select_connection ⟨false⟩ 0 ⟨fun _ _ _ => false⟩ ⟨false⟩
        [⟨.tcp, 0⟩, ⟨.tcp, 0xFFF8000000000000⟩]
      = some ⟨.tcp, 0xFFF8000000000000⟩ := by
  refine ⟨by decide, by decide, by decide, by decide, by decide, by decide⟩

/-- C4 (amended): the SRTT comparison used by connection selection is a
total order over binary64 bit patterns; a NaN whose sign bit is clear
compares greater than every finite value (and so never wins), while a NaN
whose sign bit is set compares less than every finite value (and so always
wins); same-protocol candidates are compared exactly by this ordering. -/
theorem f64TotalCmp_total_order (p : Preferences) (en : Bool)
    (x y : ConnectionState) (a b c : Nat)
    (ha : a < 2 ^ 64) (hb : b < 2 ^ 64) (hc : c < 2 ^ 64) :
    (f64TotalCmp a b = .eq ↔ a = b)
    ∧ (f64TotalCmp a b = .lt → f64TotalCmp b c = .lt → f64TotalCmp a c = .lt)
    ∧ (f64TotalCmp a b = .lt ↔ f64TotalCmp b a = .gt)
    ∧ (f64IsNaN a = true → f64SignBit a = 0 → f64IsFinite b = true →
        f64TotalCmp a b = .gt)
    ∧ (f64IsNaN a = true → f64SignBit a = 1 → f64IsFinite b = true →
        f64TotalCmp a b = .lt)
    ∧ (x.protocol = y.protocol →
        p.compare_connections en x y = f64TotalCmp x.srttCurrent y.srttCurrent) := by
  refine ⟨?_, ?_, ?_, ?_, ?_, compare_connections_same_protocol p en x y⟩
  · unfold f64TotalCmp
    rw [Nat.compare_eq_eq]
    exact ⟨f64TotalOrdKey_inj a b ha hb, fun h => by rw [h]⟩
  · unfold f64TotalCmp
    rw [Nat.compare_eq_lt, Nat.compare_eq_lt, Nat.compare_eq_lt]
    exact Nat.lt_trans
  · unfold f64TotalCmp
    rw [Nat.compare_eq_lt, Nat.compare_eq_gt]
  · intro hnan hsign hfin
    unfold f64TotalCmp
    rw [Nat.compare_eq_gt]
    exact f64TotalOrdKey_nan_pos a b ha hb hnan hsign hfin
  · intro hnan hsign hfin
    unfold f64TotalCmp
    rw [Nat.compare_eq_lt]
    exact f64TotalOrdKey_nan_neg a b ha hb hnan hsign hfin

/-- Witness for `f64TotalCmp_total_order` at concrete inputs: the positive
quiet NaN compares greater than 5.0, the negative quiet NaN compares less
than 5.0. -/
theorem f64TotalCmp_total_order_witness :
    f64TotalCmp 0x7FF8000000000000 0x4014000000000000 = .gt
    ∧ f64TotalCmp 0xFFF8000000000000 0x4014000000000000 = .lt :=
  ⟨(f64TotalCmp_total_order ⟨false⟩ false ⟨.tcp, 0⟩ ⟨.tcp, 0⟩
      0x7FF8000000000000 0x4014000000000000 0
      (by decide) (by decide) (by decide)).2.2.2.1 (by decide) (by decide) (by decide),
   (f64TotalCmp_total_order ⟨false⟩ false ⟨.tcp, 0⟩ ⟨.tcp, 0⟩
      0xFFF8000000000000 0x4014000000000000 0
      (by decide) (by decide) (by decide)).2.2.2.2.1 (by decide) (by decide) (by decide)⟩

/-- Helper: an encrypted protocol is never plain UDP. -/
theorem protocol_ne_udp_of_encrypted (protocol : Protocol)
    (h : protocol.is_encrypted = true) : protocol ≠ .udp := by
  cases protocol <;> simp_all [Protocol.is_encrypted]

/-- Helper: every preference state allows every encrypted protocol, since
only UDP can ever be excluded. -/
theorem allows_protocol_of_encrypted (p : Preferences) (protocol : Protocol)
    (h : protocol.is_encrypted = true) : p.allows_protocol protocol = true := by
  cases protocol <;> simp_all [Preferences.allows_protocol, Protocol.is_encrypted]

/-- C5: with the policy enabled, a config whose protocol is encrypted and
has a recent recorded success for that exact protocol ranks strictly
before any allowed config without such an exact-protocol recent success
(even an encrypted one), and `select_connection_config` never returns the
latter while the former is among the candidates. -/
theorem compare_connection_configs_recent_first (p : Preferences) (ip : IpAddr)
    (st : NameServerTransportState) (oe : OpportunisticEncryption)
    (a b : ConnectionConfig) (configs : List ConnectionConfig)
    (hoe : oe.is_enabled = true)
    (haenc : a.protocol.is_encrypted = true)
    (harec : st.recent_success ip a.protocol oe = true)
    (hbrec : (b.protocol.is_encrypted && st.recent_success ip b.protocol oe) = false)
    (hballow : p.allows_protocol b.protocol = true)
    (hain : a ∈ configs) :
    p.compare_connection_configs ip st oe a b = .lt
    ∧ p.compare_connection_configs ip st oe b a = .gt
    ∧ p.select_connection_config ip st oe configs ≠ some b := by
  have haudp : a.protocol ≠ .udp := protocol_ne_udp_of_encrypted a.protocol haenc
  have hka : cfgKey ip st oe a = 1 := by
    simp [cfgKey, hoe, haenc, harec, haudp]
  have hkb : 2 ≤ cfgKey ip st oe b := by
    rw [cfgKey, if_pos hoe, if_neg (by simp [hbrec])]
    omega
  refine ⟨?_, ?_, ?_⟩
  · rw [compare_connection_configs_eq_key, Nat.compare_eq_lt, hka]
    omega
  · rw [compare_connection_configs_eq_key, Nat.compare_eq_gt, hka]
    omega
  · intro hsel
    obtain ⟨_, _, _, hmn, _⟩ := rustMinBy_key (cfgKey ip st oe)
      (fun u v => p.compare_connection_configs ip st oe u v)
      (fun u v => compare_connection_configs_eq_key p ip st oe u v)
      (configs.filter fun c => p.allows_protocol c.protocol) b hsel
    have hafilt : a ∈ configs.filter fun c => p.allows_protocol c.protocol :=
      List.mem_filter.mpr ⟨hain, allows_protocol_of_encrypted p a.protocol haenc⟩
    have := hmn a hafilt
    omega

/-- Witness for `compare_connection_configs_recent_first` at a concrete
input: the oracle records a recent success only for TLS, so the TLS config
beats the HTTPS config and the HTTPS config is never selected. -/
theorem compare_connection_configs_recent_first_witness :
    Preferences.compare_connection_configs ⟨false⟩ 0
        ⟨fun _ pr _ => pr == Protocol.tls⟩ ⟨true⟩ ⟨.tls⟩ ⟨.https⟩ = .lt
    ∧ Preferences.compare_connection_configs ⟨false⟩ 0
        ⟨fun _ pr _ => pr == Protocol.tls⟩ ⟨true⟩ ⟨.https⟩ ⟨.tls⟩ = .gt
    ∧ Preferences.select_connection_config ⟨false⟩ 0
        ⟨fun _ pr _ => pr == Protocol.tls⟩ ⟨true⟩ [⟨.https⟩, ⟨.tls⟩]
      ≠ some ⟨.https⟩ :=
  compare_connection_configs_recent_first ⟨false⟩ 0
    ⟨fun _ pr _ => pr == Protocol.tls⟩ ⟨true⟩ ⟨.tls⟩ ⟨.https⟩ [⟨.https⟩, ⟨.tls⟩]
    rfl rfl rfl (by decide) (by decide) (by decide)

/-- Helper: two decompositions of a list around distinguished elements
coincide when neither distinguished element occurs in the other prefix. -/
theorem append_cons_eq_of_not_mem {q s f₁ f₂ : List α} {r a : α}
    (h : q ++ r :: s = f₁ ++ a :: f₂) (hra : r ∉ f₁) (haq : a ∉ q) :
    r = a ∧ q = f₁ := by
  induction q generalizing f₁ with
  | nil =>
    cases f₁ with
    | nil =>
      rw [List.nil_append, List.nil_append, List.cons.injEq] at h
      exact ⟨h.1, rfl⟩
    | cons w f₁t =>
      rw [List.nil_append, List.cons_append, List.cons.injEq] at h
      exact absurd (h.1 ▸ List.mem_cons_self w f₁t) hra
  | cons v qt ih =>
    cases f₁ with
    | nil =>
      rw [List.nil_append, List.cons_append, List.cons.injEq] at h
      obtain ⟨hva, _⟩ := h
      exact absurd (by rw [hva]; exact List.mem_cons_self a qt) haq
    | cons w f₁t =>
      rw [List.cons_append, List.cons_append, List.cons.injEq] at h
      obtain ⟨hvw, ht⟩ := h
      obtain ⟨hr, hq⟩ := ih ht (fun hm => hra (List.mem_cons_of_mem w hm))
        (fun hm => haq (List.mem_cons_of_mem v hm))
      exact ⟨hr, by rw [hvw, hq]⟩

/-- C6: when the allowed configs contain a strictly minimal prefix
structure with two or more minimal elements comparing equal, the config
selector returns the first minimal config in input order. -/
theorem select_connection_config_first_minimal (p : Preferences) (ip : IpAddr)
    (st : NameServerTransportState) (oe : OpportunisticEncryption)
    (configs : List ConnectionConfig) (a b : ConnectionConfig)
    (f₁ f₂ : List ConnectionConfig)
    (hsplit : configs.filter (fun c => p.allows_protocol c.protocol) = f₁ ++ a :: f₂)
    (hmin : ∀ c ∈ configs.filter (fun c => p.allows_protocol c.protocol),
      p.compare_connection_configs ip st oe a c ≠ .gt)
    (hbefore : ∀ c ∈ f₁, p.compare_connection_configs ip st oe c a = .gt)
    (hb : b ∈ f₂)
    (hbmin : ∀ c ∈ configs.filter (fun c => p.allows_protocol c.protocol),
      p.compare_connection_configs ip st oe b c ≠ .gt)
    (heq : p.compare_connection_configs ip st oe a b = .eq) :
    p.select_connection_config ip st oe configs = some a := by
  have hamem : a ∈ configs.filter (fun c => p.allows_protocol c.protocol) := by
    rw [hsplit]
    exact List.mem_append_right f₁ (List.mem_cons_self a f₂)
  have hKmin : ∀ c ∈ configs.filter (fun c => p.allows_protocol c.protocol),
      cfgKey ip st oe a ≤ cfgKey ip st oe c := by
    intro c hc
    have := hmin c hc
    rw [compare_connection_configs_eq_key] at this
    have h2 : ¬ cfgKey ip st oe c < cfgKey ip st oe a :=
      fun hlt => this (Nat.compare_eq_gt.mpr hlt)
    omega
  have hKbefore : ∀ c ∈ f₁, cfgKey ip st oe a < cfgKey ip st oe c := by
    intro c hc
    have := hbefore c hc
    rw [compare_connection_configs_eq_key, Nat.compare_eq_gt] at this
    exact this
  cases hsel : p.select_connection_config ip st oe configs with
  | none =>
    unfold Preferences.select_connection_config at hsel
    rw [(rustMinBy_eq_none_iff _ _).mp hsel] at hamem
    simp at hamem
  | some r =>
    obtain ⟨q, s2, hsp2, hmn2, hst2⟩ := rustMinBy_key (cfgKey ip st oe)
      (fun u v => p.compare_connection_configs ip st oe u v)
      (fun u v => compare_connection_configs_eq_key p ip st oe u v)
      (configs.filter fun c => p.allows_protocol c.protocol) r hsel
    have hrmem : r ∈ configs.filter (fun c => p.allows_protocol c.protocol) := by
      rw [hsp2]
      exact List.mem_append_right q (List.mem_cons_self r s2)
    have hra : r ∉ f₁ := by
      intro hrf
      have h1 := hKbefore r hrf
      have h2 := hKmin r hrmem
      have h3 := hmn2 a hamem
      omega
    have haq : a ∉ q := by
      intro haq
      have h1 := hst2 a haq
      have h2 := hKmin r hrmem
      omega
    rw [hsp2] at hsplit
    obtain ⟨hr, _⟩ := append_cons_eq_of_not_mem hsplit hra haq
    rw [hr]

/-- Witness for `select_connection_config_first_minimal` at a concrete
input: with the policy disabled, the TLS and HTTPS configs are both
minimal and compare equal, and the first of them is selected. -/
theorem select_connection_config_first_minimal_witness :
    Preferences.select_connection_config ⟨false⟩ 0 ⟨fun _ _ _ => false⟩ ⟨false⟩
      [⟨.tls⟩, ⟨.https⟩] = some ⟨.tls⟩ :=
  select_connection_config_first_minimal ⟨false⟩ 0 ⟨fun _ _ _ => false⟩ ⟨false⟩
    [⟨.tls⟩, ⟨.https⟩] ⟨.tls⟩ ⟨.https⟩ [] [⟨.https⟩]
    (by decide) (by decide) (by decide) (by decide) (by decide) (by decide)

/-- C1 counterexample: with one TCP candidate at 5.0 ms and one TLS
candidate at 40.0 ms, the policy enabled, and the oracle reporting a
recent success on every encrypted protocol, `select_connection` returns
the encrypted TLS connection, not none. -/
theorem upgrade_veto_counterexample :
    Preferences.select_connection ⟨false⟩ 0 ⟨fun _ _ _ => true⟩ ⟨true⟩
        [⟨.tcp, 0x4014000000000000⟩, ⟨.tls, 0x4044000000000000⟩]
      = some ⟨.tls, 0x4044000000000000⟩
    ∧ (NameServerTransportState.any_recent_success ⟨fun _ _ _ => true⟩ 0 ⟨true⟩ = true)
    ∧ f64TotalCmp 0x4014000000000000 0x4044000000000000 = .lt
    ∧ ¬ Preferences.select_connection ⟨false⟩ 0 ⟨fun _ _ _ => true⟩ ⟨true⟩
        [⟨.tcp, 0x4014000000000000⟩, ⟨.tls, 0x4044000000000000⟩]
      = none := by
  refine ⟨by decide, by decide, by decide, by decide⟩

/-- C1 (amended): with the policy enabled and the oracle reporting a
recent encrypted success, a candidate list holding one allowed unencrypted
connection with the better SRTT and one allowed encrypted connection with
the worse SRTT yields the encrypted connection (in either list order):
the encrypted candidate wins the ordering, so the upgrade veto does not
fire and none is not returned. -/
theorem upgrade_veto_amended (p : Preferences) (ip : IpAddr)
    (st : NameServerTransportState) (oe : OpportunisticEncryption)
    (c1 c2 : ConnectionState)
    (hoe : oe.is_enabled = true)
    (hrec : st.any_recent_success ip oe = true)
    (h1 : c1.protocol.is_encrypted = false)
    (h2 : c2.protocol.is_encrypted = true)
    (ha1 : p.allows_protocol c1.protocol = true)
    (ha2 : p.allows_protocol c2.protocol = true)
    (hsrtt : f64TotalCmp c1.srttCurrent c2.srttCurrent = .lt) :
    p.select_connection ip st oe [c1, c2] = some c2
    ∧ p.select_connection ip st oe [c2, c1] = some c2 := by
  constructor
  · unfold Preferences.select_connection
    rw [show List.filter (fun conn => p.allows_protocol conn.protocol) [c1, c2]
        = [c1, c2] by simp [List.filter, ha1, ha2]]
    simp only [rustMinBy, List.foldl, hoe, pickMin,
      compare_connections_enc_gt p c1 c2 h1 h2]
    rw [if_neg (by simp [h2])]
  · unfold Preferences.select_connection
    rw [show List.filter (fun conn => p.allows_protocol conn.protocol) [c2, c1]
        = [c2, c1] by simp [List.filter, ha1, ha2]]
    simp only [rustMinBy, List.foldl, hoe, pickMin,
      compare_connections_enc_lt p c2 c1 h2 h1]
    rw [if_neg (by simp [h2])]

/-- Witness for `upgrade_veto_amended` at the concrete scenario inputs. -/
theorem upgrade_veto_amended_witness :
    Preferences.select_connection ⟨false⟩ 0 ⟨fun _ _ _ => true⟩ ⟨true⟩
        [⟨.tcp, 0x4014000000000000⟩, ⟨.tls, 0x4044000000000000⟩]
      = some ⟨.tls, 0x4044000000000000⟩
    ∧ Preferences.select_connection ⟨false⟩ 0 ⟨fun _ _ _ => true⟩ ⟨true⟩
        [⟨.tls, 0x4044000000000000⟩, ⟨.tcp, 0x4014000000000000⟩]
      = some ⟨.tls, 0x4044000000000000⟩ :=
  upgrade_veto_amended ⟨false⟩ 0 ⟨fun _ _ _ => true⟩ ⟨true⟩
    ⟨.tcp, 0x4014000000000000⟩ ⟨.tls, 0x4044000000000000⟩
    rfl (by decide) rfl rfl (by decide) (by decide) (by decide)
